import Mathlib

/-!
Shallow embedding of `OpenPNM.ALG.OrdinaryPercolationAlgorithm`
(`src/OpenPNM/ALG/__OrdinaryPercolationAlgorithm__.py`).

Scalars (capillary pressures, volumes) are embedded as `ℚ`; pore and throat
indices as `ℕ`.  The network's property arrays (`pore_properties`,
`throat_properties`) are embedded as fields of a `Network` structure: the
intrinsic input arrays (`connections`, `Pc_entry`, `volume`, `type`,
`numbering`) plus the three bookkeeping arrays that the algorithm itself
stores into the network (`pore 'Pc_invaded'`, `throat 'Pc_invaded'`,
`throat 'invaded'`), the latter as `Option` so that their absence before
`_setup` is representable.

The adjacency construction (`GenericNetwork.create_adjacency_matrix`) and the
connectivity labeler (`scipy.sparse.csgraph.connected_components`) are not
part of the two source files; they are modelled from the spec (sections 4.1
and 4.2): a symmetric open-throat adjacency, and component labels assigned in
order of first encounter (lowest pore index first), which is also what the
scipy routine produces.  All other definitions are translated directly from
the Python source.
-/

namespace OPAlg

/-- The pore network as seen (and mutated) by the algorithm.  Intrinsic
arrays come from the external network generator; the three `Option` fields
are the bookkeeping arrays that `_setup` / the sweep write into
`pore_properties` / `throat_properties`. -/
structure Network where
  numPores : ℕ
  conns : List (ℕ × ℕ)
  Pc_entry : List ℚ
  volume : List ℚ
  ptype : List ℤ
  numbering : List ℕ
  pore_Pc_invaded : Option (List ℚ) := none
  throat_Pc_invaded : Option (List ℚ) := none
  throat_invaded : Option (List Bool) := none
deriving DecidableEq

/-- The configuration state `_setup` leaves on the algorithm object:
`self._OP`, `self._ALOP`, `self._inv_src` and `self._inv_points`. -/
structure AlgCfg where
  OP : ℕ
  ALOP : ℕ
  inv_src : List Bool
  inv_points : List ℚ
deriving DecidableEq

/-- `np.in1d(xs, ys)`: elementwise membership of `xs` in `ys` (ℤ version,
used for `pore_properties['type']` against `inv_faces`). -/
def np_in1d_int (xs : List ℤ) (ys : List ℤ) : List Bool :=
  xs.map (fun x => ys.contains x)

/-- `np.in1d(xs, ys)` (ℕ version, used for `pore_properties['numbering']`
against `inv_sites`). -/
def np_in1d_nat (xs : List ℕ) (ys : List ℕ) : List Bool :=
  xs.map (fun x => ys.contains x)

/-- `np.linspace a b n`: `n` evenly spaced points from `a` to `b` inclusive
(`[a]` for `n = 1`, `[]` for `n = 0`). -/
def linspace (a b : ℚ) (n : ℕ) : List ℚ :=
  if n = 1 then [a]
  else (List.range n).map (fun (i : ℕ) => a + (b - a) * (i : ℚ) / ((n : ℚ) - 1))

/-- `np.unique`: the distinct values of a list, sorted ascending. -/
def npUnique {α : Type} [LinearOrder α] [DecidableEq α] (l : List α) : List α :=
  List.insertionSort (· ≤ ·) l.dedup

/-- `self._net.throat_properties['invaded'] = Pc_entry < inv_val`:
per-throat boolean openness at the applied pressure (strict comparison). -/
def openThroats (net : Network) (inv_val : ℚ) : List Bool :=
  net.Pc_entry.map (fun pc => decide (pc < inv_val))

/-- Modelled from the spec: `create_adjacency_matrix('invaded', sprsfmt='csr',
dropzeros=True)` keeps exactly the endpoint pairs of open throats (closed
throats are dropped entirely, spec section 4.1). -/
def openEdges (net : Network) (inv_val : ℚ) : List (ℕ × ℕ) :=
  ((openThroats net inv_val).zip net.conns).filterMap
    (fun ic => if ic.1 then some ic.2 else none)

/-- Modelled from the spec (section 4.1): the adjacency structure is
symmetric, with an entry `(i, j)` iff some open throat connects `i` and `j`;
only pores `< P` are nodes of the matrix. -/
def adjacentB (P : ℕ) (edges : List (ℕ × ℕ)) (i j : ℕ) : Bool :=
  decide (i < P) && decide (j < P) &&
    edges.any (fun e => (e.1 == i && e.2 == j) || (e.1 == j && e.2 == i))

/-- Connectivity through open throats: the reflexive-transitive closure of
the (symmetric) adjacency.  This is the graph relation the spec's
"path of currently-open throats" refers to. -/
def Conn (P : ℕ) (edges : List (ℕ × ℕ)) : ℕ → ℕ → Prop :=
  Relation.ReflTransGen (fun a b => adjacentB P edges a b = true)

/-- One breadth-first expansion step: a set of pores together with every
pore adjacent to it. -/
def expandStep (P : ℕ) (edges : List (ℕ × ℕ)) (S : Finset ℕ) : Finset ℕ :=
  S ∪ S.biUnion (fun i => (Finset.range P).filter (fun j => adjacentB P edges i j = true))

/-- The connected component of pore `i`: `P` breadth-first expansions
saturate, since each non-fixpoint step strictly grows the set inside
`Finset.range P`. -/
def compOf (P : ℕ) (edges : List (ℕ × ℕ)) (i : ℕ) : Finset ℕ :=
  (expandStep P edges)^[P] {i}

/-- The canonical representative of `i`'s component: its smallest pore. -/
def repOf (P : ℕ) (edges : List (ℕ × ℕ)) (i : ℕ) : ℕ :=
  (compOf P edges i).min' ⟨i, by
    have h : ∀ n (S : Finset ℕ), i ∈ S → i ∈ (expandStep P edges)^[n] S := by
      intro n
      induction n with
      | zero => intro S hS; simpa using hS
      | succ k ih =>
          intro S hS
          rw [Function.iterate_succ_apply]
          exact ih _ (Finset.mem_union_left _ hS)
    exact h P {i} (Finset.mem_singleton_self i)⟩

/-- The component representatives of all pores `0..P-1`. -/
def repsList (P : ℕ) (edges : List (ℕ × ℕ)) : List ℕ :=
  (List.range P).map (repOf P edges)

/-- Modelled from the spec (section 4.2): the raw component label of pore
`q`, assigned in order of first encounter — the number of distinct
components whose smallest pore precedes the smallest pore of `q`'s
component.  This matches the labels of
`scipy.sparse.csgraph.connected_components`. -/
def rawLabel (P : ℕ) (edges : List (ℕ × ℕ)) (q : ℕ) : ℕ :=
  (((repsList P edges).dedup).filter (fun r => decide (r < repOf P edges q))).length

/-- `clusters = (clusters >= 0)*(clusters + 1)`: the source shifts the raw
labels (all `>= 0`) up by one. -/
def clustersOf (net : Network) (inv_val : ℚ) : List ℕ :=
  (List.range net.numPores).map
    (fun q => rawLabel net.numPores (openEdges net inv_val) q + 1)

/-- ALOP branch of `_do_one_inner_iteration`:
`inj_clusters = self._inv_src * clusters` (boolean mask times labels). -/
def alopInj (inv_src : List Bool) (clusters : List ℕ) : List ℕ :=
  (inv_src.zip clusters).map (fun sc => (if sc.1 then 1 else 0) * sc.2)

/-- OP (flood) branch of `_do_one_inner_iteration`:
`temp1 = invaded*((connections[:,0]+1)-1)`,
`temp2 = invaded*((connections[:,1]+1)-1)`,
`inj_clusters = append(numbering[temp1[temp1>=0]], numbering[temp2[temp2>=0]])`.
The `(c+1)-1` and the `temp >= 0` filter are kept verbatim (both are no-ops
on the nonnegative indices, exactly as in numpy). -/
def floodInj (net : Network) (invaded : List Bool) : List ℕ :=
  let temp1 := (invaded.zip net.conns).map
    (fun ic => (if ic.1 then 1 else 0) * ((ic.2.1 + 1) - 1))
  let temp2 := (invaded.zip net.conns).map
    (fun ic => (if ic.1 then 1 else 0) * ((ic.2.2 + 1) - 1))
  ((temp1.filter (fun t => decide (0 ≤ t))).map (fun t => net.numbering.getD t 0)) ++
    ((temp2.filter (fun t => decide (0 ≤ t))).map (fun t => net.numbering.getD t 0))

/-- The final "trim non-connected clusters" loop:
`temp = sp.unique(inj_clusters[sp.nonzero(inj_clusters)])`, then for each
label in `temp`, every pore whose cluster label equals it receives that
label; all other pores stay `0`.  (The source also computes an
`inv_clusters2` array that it never uses; that dead assignment is omitted.) -/
def trimClusters (clusters : List ℕ) (inj : List ℕ) : List ℕ :=
  let temp := npUnique (inj.filter (fun x => decide (x ≠ 0)))
  clusters.map (fun c => if c ∈ temp then c else 0)

/-- `_do_one_inner_iteration(inv_val)`: stores the throat openness into the
network, labels components, resolves clusters to sources (ALOP) or to open
throat endpoints (OP), and returns the per-pore invasion indicator.
(If neither mode flag is set the source would raise `NameError`; that state
is unreachable after `_setup`, modelled as the empty source list.) -/
def doOneInnerIteration (cfg : AlgCfg) (net : Network) (inv_val : ℚ) :
    Network × List ℕ :=
  let invaded := openThroats net inv_val
  let net' := { net with throat_invaded := some invaded }
  let clusters := clustersOf net inv_val
  let inj := if cfg.ALOP = 1 then alopInj cfg.inv_src clusters
    else if cfg.OP = 1 then floodInj net invaded
    else []
  (net', trimClusters clusters inj)

/-- `Pc_invaded[(Pc_invaded==0)*(inv_clusters>0)] = inv_val`: commit the
applied pressure into the record exactly where the record is still at the
`0` sentinel and the pore was invaded this step. -/
def commit (inv_val : ℚ) : List ℚ → List ℕ → List ℚ
  | [], _ => []
  | r :: rs, [] => r :: rs
  | r :: rs, c :: cs =>
      (if r = 0 ∧ 0 < c then inv_val else r) :: commit inv_val rs cs

/-- The per-pore invasion record (`pore_properties['Pc_invaded']`),
defaulting to the empty list before `_setup`. -/
def recListOf (net : Network) : List ℚ := net.pore_Pc_invaded.getD []

/-- Recorded invasion pressure of pore `q`. -/
def recOf (net : Network) (q : ℕ) : ℚ := (recListOf net).getD q 0

/-- One iteration of the loop body of `_do_outer_iteration_stage`: one inner
iteration followed by the record commit. -/
def stepNet (cfg : AlgCfg) (net : Network) (inv_val : ℚ) : Network :=
  let r := doOneInnerIteration cfg net inv_val
  { r.1 with pore_Pc_invaded := some (commit inv_val (recListOf r.1) r.2) }

/-- The pressure sweep over an explicit list of applied pressures. -/
def sweepFrom (cfg : AlgCfg) (net : Network) (pts : List ℚ) : Network :=
  pts.foldl (stepNet cfg) net

/-- `_do_outer_iteration_stage()`: sweep `self._inv_points` in order, then
`del self._net.throat_properties['invaded']`. -/
def doOuterIterationStage (cfg : AlgCfg) (net : Network) : Network :=
  let net' := sweepFrom cfg net cfg.inv_points
  { net' with throat_invaded := none }

/-- The source-interpretation block at the top of `_setup`: no sources means
ordinary percolation (`_OP = 1`); otherwise `inv_faces` is checked first and,
only if it is empty, `inv_sites` (`_ALOP = 1` with the corresponding
`_inv_src` mask).  Returns `(_OP, _ALOP, _inv_src)`. -/
def interpretSource (net : Network) (inv_faces : List ℤ) (inv_sites : List ℕ) :
    ℕ × ℕ × List Bool :=
  if inv_faces.length + inv_sites.length = 0 then (1, 0, [])
  else if 0 < inv_faces.length then (0, 1, np_in1d_int net.ptype inv_faces)
  else (0, 1, np_in1d_nat net.numbering inv_sites)

/-- `_setup(npts, inv_faces, inv_sites)`: interpret the invasion source,
create the bookkeeping arrays on the network, and build the pressure
schedule `linspace(min Pc_entry, max Pc_entry, npts)`.  A `.error` result
stands for the exception the underlying numpy call raises (`np.min` of an
empty array when there are no throats; `np.linspace` with a negative sample
count). -/
def setup (net : Network) (npts : ℤ) (inv_faces : List ℤ) (inv_sites : List ℕ) :
    Except String (Network × AlgCfg) :=
  let src : ℕ × ℕ × List Bool := interpretSource net inv_faces inv_sites
  let net' := { net with
    pore_Pc_invaded := some (List.replicate net.numPores (0 : ℚ)),
    throat_Pc_invaded := some (List.replicate net.conns.length (0 : ℚ)),
    throat_invaded := some (List.replicate net.conns.length false) }
  if net.Pc_entry.length = 0 then
    .error "zero-size array to reduction operation minimum"
  else if npts < 0 then
    .error "Number of samples must be nonnegative"
  else
    let min_p := net.Pc_entry.foldl min (net.Pc_entry.headD 0)
    let max_p := net.Pc_entry.foldl max (net.Pc_entry.headD 0)
    .ok (net', ⟨src.1, src.2.1, src.2.2, linspace min_p max_p npts.toNat⟩)

/-- Whether an `Except` result is a success. -/
def exceptIsOk {ε α : Type} (e : Except ε α) : Bool :=
  match e with
  | .ok _ => true
  | .error _ => false

/-- The network returned by a successful `_setup`. -/
def setupResultNet (net : Network) (npts : ℤ) (inv_faces : List ℤ)
    (inv_sites : List ℕ) : Option Network :=
  match setup net npts inv_faces inv_sites with
  | .ok x => some x.1
  | .error _ => none

/-- `Ps = np.where(type == 0)`: the reporting subset of `_plot_results`,
the internal pores. -/
def poresInternal (net : Network) : List ℕ :=
  (List.range net.numPores).filter (fun q => decide (net.ptype.getD q 1 = 0))

/-- Total volume of a list of pores. -/
def volOf (net : Network) (qs : List ℕ) : ℚ :=
  (qs.map (fun q => net.volume.getD q 0)).sum

/-- The loop body of `_plot_results`: saturation at pressure `Pc` is the
volume of internal pores whose recorded invasion pressure is strictly below
`Pc`, over the total internal volume. -/
def satAt (net : Network) (pci : List ℚ) (Pc : ℚ) : ℚ :=
  volOf net ((poresInternal net).filter (fun q => decide (pci.getD q 0 < Pc))) /
    volOf net (poresInternal net)

/-- `_plot_results()` (its numeric output `self._results`):
`PcPoints = np.unique(Pc_invaded)`, `Snwp[0] = 0`, and
`Snwp[i] = sum(vol[Ps][Pc_invaded[Ps] < PcPoints[i]])/sum(vol[Ps])` for
`i >= 1`. -/
def plotResults (net : Network) : List (ℚ × ℚ) :=
  match npUnique (recListOf net) with
  | [] => []
  | p0 :: rest =>
      (p0, 0) :: rest.map (fun Pc => (Pc, satAt net (recListOf net) Pc))

/-- Intrinsic (input) network data: everything the algorithm is only
supposed to read. -/
def sameIntrinsic (a b : Network) : Prop :=
  a.numPores = b.numPores ∧ a.conns = b.conns ∧ a.Pc_entry = b.Pc_entry ∧
    a.volume = b.volume ∧ a.ptype = b.ptype ∧ a.numbering = b.numbering

/-- A 2-pore, 1-throat network with no bookkeeping arrays yet. -/
def netA : Network :=
  { numPores := 2, conns := [(0, 1)], Pc_entry := [2], volume := [1, 1],
    ptype := [0, 0], numbering := [0, 1] }

/-- `netA` after `_setup`: the bookkeeping arrays have been written. -/
def netAok : Network :=
  { netA with
    pore_Pc_invaded := some (List.replicate 2 (0 : ℚ)),
    throat_Pc_invaded := some (List.replicate 1 (0 : ℚ)),
    throat_invaded := some (List.replicate 1 false) }

/-- The configuration `_setup` produces on `netA` in flood mode with the
default 25 pressure points (the degenerate all-equal schedule). -/
def cfgAok : AlgCfg :=
  { OP := 1, ALOP := 0, inv_src := [], inv_points := linspace 2 2 25 }

/-- A 2-pore, 1-throat network with its record initialized (post-`_setup`
state). -/
def netB : Network :=
  { numPores := 2, conns := [(0, 1)], Pc_entry := [3], volume := [1, 1],
    ptype := [0, 0], numbering := [0, 1],
    pore_Pc_invaded := some [0, 0], throat_Pc_invaded := some [0],
    throat_invaded := some [false] }

/-- Source-site configuration in which both pores are sources. -/
def cfgW : AlgCfg := { OP := 0, ALOP := 1, inv_src := [true, true], inv_points := [] }

/-- Source configuration in which only pore 0 is a source. -/
def cfg10 : AlgCfg := { OP := 0, ALOP := 1, inv_src := [true, false], inv_points := [] }

/-- Flood-mode configuration. -/
def cfgOP : AlgCfg := { OP := 1, ALOP := 0, inv_src := [], inv_points := [] }

/-- Three pores, one throat joining pores 0 and 2 (pore 1 is isolated). -/
def net3 : Network :=
  { numPores := 3, conns := [(0, 2)], Pc_entry := [1], volume := [1, 1, 1],
    ptype := [0, 0, 0], numbering := [0, 1, 2] }

/-- `netB` with a finished invasion record `[2, 7]`. -/
def netF : Network := { netB with pore_Pc_invaded := some [2, 7] }

/-- A network with one pore and no throats. -/
def netE : Network :=
  { numPores := 1, conns := [], Pc_entry := [], volume := [1], ptype := [0],
    numbering := [0] }

/-! ### List utilities -/

theorem getD_map_range {α : Type} (f : ℕ → α) (n q : ℕ) (d : α) :
    ((List.range n).map f).getD q d = if q < n then f q else d := by
  by_cases h : q < n
  · rw [if_pos h, List.getD_eq_getElem _ _ (by simpa using h)]
    simp
  · rw [if_neg h, List.getD_eq_default]
    simpa using Nat.le_of_not_lt h

theorem getD_map_lt {α β : Type} {f : α → β} {l : List α} {q : ℕ}
    (h : q < l.length) (d : α) (d' : β) :
    (l.map f).getD q d' = f (l.getD q d) := by
  rw [List.getD_eq_getElem _ _ (by simpa using h), List.getD_eq_getElem _ _ h,
    List.getElem_map]

theorem commit_getD (v : ℚ) :
    ∀ (pci : List ℚ) (cl : List ℕ) (q : ℕ),
      (commit v pci cl).getD q 0 =
        if q < pci.length ∧ pci.getD q 0 = 0 ∧ 0 < cl.getD q 0 then v
        else pci.getD q 0 := by
  intro pci
  induction pci with
  | nil => intro cl q; simp [commit]
  | cons r rs ih =>
      intro cl q
      cases cl with
      | nil =>
          simp [commit]
      | cons c cs =>
          cases q with
          | zero => simp [commit]
          | succ n =>
              simpa [commit, Nat.succ_lt_succ_iff] using ih cs n

theorem commit_of_ne_zero (v : ℚ) (pci : List ℚ) (cl : List ℕ) (q : ℕ)
    (h : pci.getD q 0 ≠ 0) : (commit v pci cl).getD q 0 = pci.getD q 0 := by
  rw [commit_getD, if_neg]
  rintro ⟨-, h0, -⟩
  exact h h0

theorem alopInj_length (inv_src : List Bool) (cl : List ℕ) :
    (alopInj inv_src cl).length = min inv_src.length cl.length := by
  simp [alopInj]

theorem alopInj_getD :
    ∀ (inv_src : List Bool) (cl : List ℕ) (s : ℕ), s < inv_src.length →
      s < cl.length →
      (alopInj inv_src cl).getD s 0 =
        if inv_src.getD s false then cl.getD s 0 else 0 := by
  intro inv_src
  induction inv_src with
  | nil => intro cl s h _; simp at h
  | cons b bs ih =>
      intro cl s hs hc
      cases cl with
      | nil => simp at hc
      | cons c cs =>
          cases s with
          | zero => cases b <;> simp [alopInj]
          | succ n =>
              have hs' : n < bs.length := by simpa [Nat.succ_lt_succ_iff] using hs
              have hc' : n < cs.length := by simpa [Nat.succ_lt_succ_iff] using hc
              simpa [alopInj] using ih cs n hs' hc'

theorem mem_npUnique {α : Type} [LinearOrder α] [DecidableEq α] {l : List α}
    {x : α} : x ∈ npUnique l ↔ x ∈ l := by
  unfold npUnique
  rw [(List.perm_insertionSort _ _).mem_iff, List.mem_dedup]

theorem map_fst_pair {α β : Type} (f : α → β) (l : List α) :
    (l.map (fun x => (x, f x))).map Prod.fst = l := by
  induction l with
  | nil => rfl
  | cons a as ih => simp [ih]

theorem map_snd_pair {α β : Type} (f : α → β) (l : List α) :
    (l.map (fun x => (x, f x))).map Prod.snd = l.map f := by
  induction l with
  | nil => rfl
  | cons a as ih => simp [ih]

theorem sorted_npUnique {α : Type} [LinearOrder α] [DecidableEq α]
    (l : List α) : List.Sorted (· ≤ ·) (npUnique l) :=
  List.sorted_insertionSort _ _

theorem nodup_npUnique {α : Type} [LinearOrder α] [DecidableEq α]
    (l : List α) : (npUnique l).Nodup :=
  (List.perm_insertionSort _ _).nodup_iff.2 l.nodup_dedup

theorem foldl_min_le_init (l : List ℚ) (a : ℚ) : l.foldl min a ≤ a := by
  induction l generalizing a with
  | nil => exact le_refl a
  | cons b bs ih => exact le_trans (ih (min a b)) (min_le_left a b)

theorem foldl_min_le_mem (l : List ℚ) (a : ℚ) (x : ℚ) (hx : x ∈ l) :
    l.foldl min a ≤ x := by
  induction l generalizing a with
  | nil => simp at hx
  | cons b bs ih =>
      rcases List.mem_cons.1 hx with h | h
      · subst h
        exact le_trans (foldl_min_le_init bs (min a x)) (min_le_right a x)
      · exact ih (min a b) h

theorem foldl_min_mem (l : List ℚ) (a : ℚ) :
    l.foldl min a = a ∨ l.foldl min a ∈ l := by
  induction l generalizing a with
  | nil => exact Or.inl rfl
  | cons b bs ih =>
      rcases ih (min a b) with h | h
      · rcases min_cases a b with ⟨hm, -⟩ | ⟨hm, -⟩
        · exact Or.inl (by rw [List.foldl_cons, h, hm])
        · exact Or.inr (by rw [List.foldl_cons, h, hm]; exact List.mem_cons_self b bs)
      · exact Or.inr (List.mem_cons_of_mem b h)

theorem foldl_max_ge_init (l : List ℚ) (a : ℚ) : a ≤ l.foldl max a := by
  induction l generalizing a with
  | nil => exact le_refl a
  | cons b bs ih => exact le_trans (le_max_left a b) (ih (max a b))

theorem foldl_max_ge_mem (l : List ℚ) (a : ℚ) (x : ℚ) (hx : x ∈ l) :
    x ≤ l.foldl max a := by
  induction l generalizing a with
  | nil => simp at hx
  | cons b bs ih =>
      rcases List.mem_cons.1 hx with h | h
      · subst h
        exact le_trans (le_max_right a x) (foldl_max_ge_init bs (max a x))
      · exact ih (max a b) h

theorem foldl_max_mem (l : List ℚ) (a : ℚ) :
    l.foldl max a = a ∨ l.foldl max a ∈ l := by
  induction l generalizing a with
  | nil => exact Or.inl rfl
  | cons b bs ih =>
      rcases ih (max a b) with h | h
      · rcases max_cases a b with ⟨hm, -⟩ | ⟨hm, -⟩
        · exact Or.inl (by rw [List.foldl_cons, h, hm])
        · exact Or.inr (by rw [List.foldl_cons, h, hm]; exact List.mem_cons_self b bs)
      · exact Or.inr (List.mem_cons_of_mem b h)

/-! ### Sweep-driver invariants -/

theorem stepNet_recList (cfg : AlgCfg) (net : Network) (v : ℚ) :
    recListOf (stepNet cfg net v) =
      commit v (recListOf net) (doOneInnerIteration cfg net v).2 := rfl

theorem stepNet_preserve (cfg : AlgCfg) (net : Network) (v : ℚ) (q : ℕ)
    (h : recOf net q ≠ 0) : recOf (stepNet cfg net v) q = recOf net q := by
  show (recListOf (stepNet cfg net v)).getD q 0 = _
  rw [stepNet_recList]
  exact commit_of_ne_zero _ _ _ _ h

theorem sweep_preserve (cfg : AlgCfg) :
    ∀ (pts : List ℚ) (net : Network) (q : ℕ) (v : ℚ), v ≠ 0 →
      recOf net q = v → recOf (sweepFrom cfg net pts) q = v := by
  intro pts
  induction pts with
  | nil => intro net q v _ h; exact h
  | cons p ps ih =>
      intro net q v hv h
      show recOf (sweepFrom cfg (stepNet cfg net p) ps) q = v
      refine ih _ q v hv ?_
      rw [stepNet_preserve cfg net p q (by rw [h]; exact hv)]
      exact h

/-! ### Connectivity labeler correctness -/

theorem adjacentB_lt {P : ℕ} {edges : List (ℕ × ℕ)} {i j : ℕ}
    (h : adjacentB P edges i j = true) : i < P ∧ j < P := by
  simp only [adjacentB, Bool.and_eq_true, decide_eq_true_eq] at h
  exact ⟨h.1.1, h.1.2⟩

theorem adjacentB_symm {P : ℕ} {edges : List (ℕ × ℕ)} {i j : ℕ}
    (h : adjacentB P edges i j = true) : adjacentB P edges j i = true := by
  simp only [adjacentB, Bool.and_eq_true, decide_eq_true_eq, List.any_eq_true,
    Bool.or_eq_true] at h ⊢
  obtain ⟨⟨h1, h2⟩, e, he, hc⟩ := h
  exact ⟨⟨h2, h1⟩, e, he, hc.symm⟩

theorem conn_symm {P : ℕ} {edges : List (ℕ × ℕ)} {i j : ℕ}
    (h : Conn P edges i j) : Conn P edges j i := by
  induction h with
  | refl => exact Relation.ReflTransGen.refl
  | tail _ hbc ih => exact Relation.ReflTransGen.head (adjacentB_symm hbc) ih

theorem subset_expandStep (P : ℕ) (edges : List (ℕ × ℕ)) (S : Finset ℕ) :
    S ⊆ expandStep P edges S :=
  Finset.subset_union_left

theorem mem_expandStep {P : ℕ} {edges : List (ℕ × ℕ)} {S : Finset ℕ} {j : ℕ} :
    j ∈ expandStep P edges S ↔
      j ∈ S ∨ ∃ i ∈ S, adjacentB P edges i j = true := by
  constructor
  · intro h
    rcases Finset.mem_union.1 h with h | h
    · exact Or.inl h
    · rcases Finset.mem_biUnion.1 h with ⟨i, hi, hj⟩
      rcases Finset.mem_filter.1 hj with ⟨-, hadj⟩
      exact Or.inr ⟨i, hi, hadj⟩
  · rintro (h | ⟨i, hi, hadj⟩)
    · exact Finset.mem_union_left _ h
    · exact Finset.mem_union_right _ (Finset.mem_biUnion.2
        ⟨i, hi, Finset.mem_filter.2
          ⟨Finset.mem_range.2 (adjacentB_lt hadj).2, hadj⟩⟩)

theorem mem_iterate_of_mem (P : ℕ) (edges : List (ℕ × ℕ)) :
    ∀ (n : ℕ) (S : Finset ℕ) (i : ℕ), i ∈ S →
      i ∈ (expandStep P edges)^[n] S := by
  intro n
  induction n with
  | zero => intro S i hS; simpa using hS
  | succ k ih =>
      intro S i hS
      rw [Function.iterate_succ_apply]
      exact ih _ i (Finset.mem_union_left _ hS)

theorem self_mem_compOf (P : ℕ) (edges : List (ℕ × ℕ)) (i : ℕ) :
    i ∈ compOf P edges i :=
  mem_iterate_of_mem P edges P {i} i (Finset.mem_singleton_self i)

theorem expandStep_subset_range {P : ℕ} {edges : List (ℕ × ℕ)} {S : Finset ℕ}
    (h : S ⊆ Finset.range P) : expandStep P edges S ⊆ Finset.range P := by
  intro j hj
  rcases mem_expandStep.1 hj with hj | ⟨i, _, hadj⟩
  · exact h hj
  · exact Finset.mem_range.2 (adjacentB_lt hadj).2

theorem iterate_subset_range {P : ℕ} {edges : List (ℕ × ℕ)} {i : ℕ}
    (hi : i < P) : ∀ n, (expandStep P edges)^[n] {i} ⊆ Finset.range P := by
  intro n
  induction n with
  | zero => simpa using Finset.singleton_subset_iff.2 (Finset.mem_range.2 hi)
  | succ k ih =>
      rw [Function.iterate_succ_apply']
      exact expandStep_subset_range ih

theorem iterate_eq_of_fix {α : Type} (f : α → α) (S : α) (h : f S = S) :
    ∀ n, f^[n] S = S := by
  intro n
  induction n with
  | zero => rfl
  | succ k ih => rw [Function.iterate_succ_apply', ih, h]

theorem compOf_fix {P : ℕ} {edges : List (ℕ × ℕ)} {i : ℕ} (hi : i < P) :
    expandStep P edges (compOf P edges i) = compOf P edges i := by
  by_contra hne
  have key : ∀ k, k ≤ P →
      (expandStep P edges)^[k + 1] {i} ≠ (expandStep P edges)^[k] {i} := by
    intro k hk hEq
    apply hne
    have hfix : expandStep P edges ((expandStep P edges)^[k] {i}) =
        (expandStep P edges)^[k] {i} :=
      (Function.iterate_succ_apply' _ _ _).symm.trans hEq
    have hPk : (expandStep P edges)^[P] {i} = (expandStep P edges)^[k] {i} := by
      have h1 : (expandStep P edges)^[(P - k) + k] {i} =
          (expandStep P edges)^[P - k] ((expandStep P edges)^[k] {i}) :=
        Function.iterate_add_apply _ _ _ _
      rw [show P - k + k = P from Nat.sub_add_cancel hk] at h1
      rw [h1]
      exact iterate_eq_of_fix _ _ hfix (P - k)
    show expandStep P edges (compOf P edges i) = compOf P edges i
    have hc : compOf P edges i = (expandStep P edges)^[k] {i} := hPk
    rw [hc, hfix]
  have grow : ∀ k, k ≤ P + 1 → k + 1 ≤ ((expandStep P edges)^[k] {i}).card := by
    intro k
    induction k with
    | zero => intro _; simp
    | succ m ih =>
        intro hm
        have h1 : m + 1 ≤ ((expandStep P edges)^[m] {i}).card := ih (by omega)
        have hss : (expandStep P edges)^[m] {i} ⊂ (expandStep P edges)^[m + 1] {i} := by
          rw [Function.iterate_succ_apply']
          refine Finset.ssubset_iff_subset_ne.2 ⟨subset_expandStep _ _ _, ?_⟩
          intro hEq
          refine key m (by omega) ?_
          rw [Function.iterate_succ_apply']
          exact hEq.symm
        have := Finset.card_lt_card hss
        omega
  have h1 : P + 2 ≤ ((expandStep P edges)^[P + 1] {i}).card := grow (P + 1) le_rfl
  have h2 : ((expandStep P edges)^[P + 1] {i}).card ≤ P := by
    calc ((expandStep P edges)^[P + 1] {i}).card
        ≤ (Finset.range P).card := Finset.card_le_card (iterate_subset_range hi (P + 1))
      _ = P := Finset.card_range P
  omega

theorem compOf_closed {P : ℕ} {edges : List (ℕ × ℕ)} {i j k : ℕ} (hi : i < P)
    (hj : j ∈ compOf P edges i) (hadj : adjacentB P edges j k = true) :
    k ∈ compOf P edges i := by
  have h : k ∈ expandStep P edges (compOf P edges i) :=
    mem_expandStep.2 (Or.inr ⟨j, hj, hadj⟩)
  rwa [compOf_fix hi] at h

theorem conn_of_mem_iterate {P : ℕ} {edges : List (ℕ × ℕ)} {i : ℕ} :
    ∀ (n : ℕ) (S : Finset ℕ), (∀ x ∈ S, Conn P edges i x) →
      ∀ j ∈ (expandStep P edges)^[n] S, Conn P edges i j := by
  intro n
  induction n with
  | zero => intro S hS j hj; exact hS j (by simpa using hj)
  | succ k ih =>
      intro S hS j hj
      rw [Function.iterate_succ_apply] at hj
      refine ih (expandStep P edges S) ?_ j hj
      intro x hx
      rcases mem_expandStep.1 hx with hx | ⟨y, hy, hadj⟩
      · exact hS x hx
      · exact (hS y hy).tail hadj

theorem mem_compOf_iff {P : ℕ} {edges : List (ℕ × ℕ)} {i j : ℕ} (hi : i < P) :
    j ∈ compOf P edges i ↔ Conn P edges i j := by
  constructor
  · intro hj
    refine conn_of_mem_iterate P {i} ?_ j hj
    intro x hx
    rw [Finset.mem_singleton] at hx
    subst hx
    exact Relation.ReflTransGen.refl
  · intro hc
    induction hc with
    | refl => exact self_mem_compOf P edges i
    | tail _ hbc ih => exact compOf_closed hi ih hbc

theorem compOf_congr {P : ℕ} {edges : List (ℕ × ℕ)} {i j : ℕ} (hi : i < P)
    (hj : j < P) (h : Conn P edges i j) :
    compOf P edges i = compOf P edges j := by
  ext k
  rw [mem_compOf_iff hi, mem_compOf_iff hj]
  exact ⟨fun hk => (conn_symm h).trans hk, fun hk => h.trans hk⟩

theorem min'_congr {s t : Finset ℕ} (h : s = t) (hs : s.Nonempty)
    (ht : t.Nonempty) : s.min' hs = t.min' ht := by
  subst h
  rfl

theorem repOf_mem (P : ℕ) (edges : List (ℕ × ℕ)) (i : ℕ) :
    repOf P edges i ∈ compOf P edges i :=
  Finset.min'_mem _ _

theorem repOf_eq_iff {P : ℕ} {edges : List (ℕ × ℕ)} {i j : ℕ} (hi : i < P)
    (hj : j < P) : repOf P edges i = repOf P edges j ↔ Conn P edges i j := by
  constructor
  · intro h
    have h1 : Conn P edges i (repOf P edges i) :=
      (mem_compOf_iff hi).1 (repOf_mem P edges i)
    have h2 : Conn P edges j (repOf P edges j) :=
      (mem_compOf_iff hj).1 (repOf_mem P edges j)
    exact h1.trans (h ▸ conn_symm h2)
  · intro h
    exact min'_congr (compOf_congr hi hj h) _ _

theorem repOf_mem_repsList {P : ℕ} {edges : List (ℕ × ℕ)} {i : ℕ}
    (hi : i < P) : repOf P edges i ∈ repsList P edges :=
  List.mem_map.2 ⟨i, List.mem_range.2 hi, rfl⟩

theorem rawLabel_lt {P : ℕ} {edges : List (ℕ × ℕ)} {i j : ℕ} (hi : i < P)
    (h : repOf P edges i < repOf P edges j) :
    rawLabel P edges i < rawLabel P edges j := by
  unfold rawLabel
  have hsub : List.Sublist
      ((repsList P edges).dedup.filter (fun r => decide (r < repOf P edges i)))
      ((repsList P edges).dedup.filter (fun r => decide (r < repOf P edges j))) := by
    refine List.monotone_filter_right _ ?_
    intro a ha
    simp only [decide_eq_true_eq] at ha ⊢
    exact ha.trans h
  have hmem : repOf P edges i ∈ (repsList P edges).dedup.filter
      (fun r => decide (r < repOf P edges j)) :=
    List.mem_filter.2 ⟨List.mem_dedup.2 (repOf_mem_repsList hi), by
      simpa using h⟩
  have hnmem : repOf P edges i ∉ (repsList P edges).dedup.filter
      (fun r => decide (r < repOf P edges i)) := by
    intro hmm
    rcases List.mem_filter.1 hmm with ⟨-, hlt⟩
    simp at hlt
  rcases lt_or_eq_of_le hsub.length_le with hlt | hEq
  · exact hlt
  · exact absurd (hsub.eq_of_length hEq ▸ hmem) hnmem

theorem rawLabel_eq_iff {P : ℕ} {edges : List (ℕ × ℕ)} {i j : ℕ} (hi : i < P)
    (hj : j < P) :
    rawLabel P edges i = rawLabel P edges j ↔ repOf P edges i = repOf P edges j := by
  constructor
  · intro h
    by_contra hne
    rcases lt_or_gt_of_ne hne with hlt | hlt
    · exact absurd h (Nat.ne_of_lt (rawLabel_lt hi hlt))
    · exact absurd h.symm (Nat.ne_of_lt (rawLabel_lt hj hlt))
  · intro h
    unfold rawLabel
    rw [h]

theorem clustersOf_length (net : Network) (inv_val : ℚ) :
    (clustersOf net inv_val).length = net.numPores := by
  simp [clustersOf]

theorem clustersOf_getD {net : Network} {inv_val : ℚ} {q : ℕ}
    (hq : q < net.numPores) :
    (clustersOf net inv_val).getD q 0 =
      rawLabel net.numPores (openEdges net inv_val) q + 1 := by
  unfold clustersOf
  rw [getD_map_range]
  simp [hq]

/-! ### Curve-extractor lemmas -/

theorem vol_getD_nonneg {net : Network} (hv : ∀ v ∈ net.volume, 0 ≤ v)
    (q : ℕ) : 0 ≤ net.volume.getD q 0 := by
  by_cases h : q < net.volume.length
  · rw [List.getD_eq_getElem _ _ h]
    exact hv _ (List.getElem_mem h)
  · rw [List.getD_eq_default _ _ (Nat.le_of_not_lt h)]

theorem volOf_nonneg {net : Network} (hv : ∀ v ∈ net.volume, 0 ≤ v)
    (qs : List ℕ) : 0 ≤ volOf net qs := by
  refine List.sum_nonneg ?_
  intro x hx
  rcases List.mem_map.1 hx with ⟨q, -, rfl⟩
  exact vol_getD_nonneg hv q

theorem volOf_mono {net : Network} (hv : ∀ v ∈ net.volume, 0 ≤ v)
    {l1 l2 : List ℕ} (h : List.Sublist l1 l2) :
    volOf net l1 ≤ volOf net l2 := by
  refine List.Sublist.sum_le_sum (h.map _) ?_
  intro a ha
  rcases List.mem_map.1 ha with ⟨q, -, rfl⟩
  exact vol_getD_nonneg hv q

theorem satAt_nonneg (net : Network) (pci : List ℚ) (Pc : ℚ)
    (hv : ∀ v ∈ net.volume, 0 ≤ v) : 0 ≤ satAt net pci Pc :=
  div_nonneg (volOf_nonneg hv _) (volOf_nonneg hv _)

theorem satAt_le_one (net : Network) (pci : List ℚ) (Pc : ℚ)
    (hv : ∀ v ∈ net.volume, 0 ≤ v) : satAt net pci Pc ≤ 1 := by
  unfold satAt
  rcases eq_or_lt_of_le (volOf_nonneg hv (poresInternal net)) with h0 | hpos
  · rw [← h0, div_zero]
    norm_num
  · rw [div_le_one hpos]
    exact volOf_mono hv (List.filter_sublist _)

theorem satAt_mono (net : Network) (pci : List ℚ)
    (hv : ∀ v ∈ net.volume, 0 ≤ v) {p1 p2 : ℚ} (h : p1 ≤ p2) :
    satAt net pci p1 ≤ satAt net pci p2 := by
  unfold satAt
  rcases eq_or_lt_of_le (volOf_nonneg hv (poresInternal net)) with h0 | hpos
  · rw [← h0, div_zero, div_zero]
  · have hnum : volOf net ((poresInternal net).filter
          (fun q => decide (pci.getD q 0 < p1))) ≤
        volOf net ((poresInternal net).filter
          (fun q => decide (pci.getD q 0 < p2))) := by
      refine volOf_mono hv (List.monotone_filter_right _ ?_)
      intro a ha
      simp only [decide_eq_true_eq] at ha ⊢
      exact lt_of_lt_of_le ha h
    gcongr

theorem mem_poresInternal {net : Network} {q : ℕ} :
    q ∈ poresInternal net ↔ q < net.numPores ∧ net.ptype.getD q 1 = 0 := by
  unfold poresInternal
  rw [List.mem_filter, List.mem_range]
  simp

theorem satAt_bot {net : Network} {pci : List ℚ} {p0 : ℚ}
    (h : ∀ q ∈ poresInternal net, ¬ pci.getD q 0 < p0) :
    satAt net pci p0 = 0 := by
  unfold satAt
  have hfil : (poresInternal net).filter (fun q => decide (pci.getD q 0 < p0)) = [] := by
    rw [List.filter_eq_nil_iff]
    intro a ha
    simpa using h a ha
  rw [hfil]
  show volOf net [] / _ = 0
  rw [show volOf net [] = 0 from rfl, zero_div]

theorem sameIntrinsic_trans {a b c : Network} (h1 : sameIntrinsic a b)
    (h2 : sameIntrinsic b c) : sameIntrinsic a c := by
  obtain ⟨u1, u2, u3, u4, u5, u6⟩ := h1
  obtain ⟨v1, v2, v3, v4, v5, v6⟩ := h2
  exact ⟨u1.trans v1, u2.trans v2, u3.trans v3, u4.trans v4, u5.trans v5,
    u6.trans v6⟩

theorem stepNet_intrinsic (cfg : AlgCfg) (net : Network) (v : ℚ) :
    sameIntrinsic net (stepNet cfg net v) :=
  ⟨rfl, rfl, rfl, rfl, rfl, rfl⟩

theorem sweep_intrinsic (cfg : AlgCfg) :
    ∀ (pts : List ℚ) (net : Network), sameIntrinsic net (sweepFrom cfg net pts) := by
  intro pts
  induction pts with
  | nil => intro net; exact ⟨rfl, rfl, rfl, rfl, rfl, rfl⟩
  | cons p ps ih =>
      intro net
      exact sameIntrinsic_trans (stepNet_intrinsic cfg net p) (ih (stepNet cfg net p))

/-! ### Setup and schedule lemmas -/

theorem interpretSource_none (net : Network) :
    interpretSource net [] [] = (1, 0, []) := rfl

theorem interpretSource_faces {net : Network} {faces : List ℤ}
    {sites : List ℕ} (hf : faces ≠ []) :
    interpretSource net faces sites = (0, 1, np_in1d_int net.ptype faces) := by
  unfold interpretSource
  have hflen : 0 < faces.length := List.length_pos.2 hf
  rw [if_neg (by omega), if_pos hflen]

theorem setup_ok {net : Network} {npts : ℤ} {faces : List ℤ} {sites : List ℕ}
    (hT : net.Pc_entry ≠ []) (hn : 0 ≤ npts) :
    setup net npts faces sites = .ok
      ({ net with
          pore_Pc_invaded := some (List.replicate net.numPores (0 : ℚ)),
          throat_Pc_invaded := some (List.replicate net.conns.length (0 : ℚ)),
          throat_invaded := some (List.replicate net.conns.length false) },
        ⟨(interpretSource net faces sites).1,
          (interpretSource net faces sites).2.1,
          (interpretSource net faces sites).2.2,
          linspace (net.Pc_entry.foldl min (net.Pc_entry.headD 0))
            (net.Pc_entry.foldl max (net.Pc_entry.headD 0)) npts.toNat⟩) := by
  unfold setup
  rw [if_neg (by simpa using hT), if_neg (not_lt.2 hn)]

theorem linspace_length (a b : ℚ) (n : ℕ) : (linspace a b n).length = n := by
  unfold linspace
  by_cases h : n = 1
  · subst h; rfl
  · rw [if_neg h]; simp

theorem linspace_getD (a b : ℚ) (n i : ℕ) (h : i < n) :
    (linspace a b n).getD i 0 = a + (b - a) * i / ((n : ℚ) - 1) := by
  unfold linspace
  by_cases h1 : n = 1
  · subst h1
    have hi : i = 0 := by omega
    subst hi
    norm_num
  · rw [if_neg h1, getD_map_range, if_pos h]

theorem linspace_sorted (a b : ℚ) (n : ℕ) (hab : a ≤ b) :
    List.Sorted (· ≤ ·) (linspace a b n) := by
  have hlen := linspace_length a b n
  have key : ∀ m : Fin (linspace a b n).length,
      (linspace a b n).get m = a + (b - a) * m.1 / ((n : ℚ) - 1) := by
    intro m
    have hm : m.1 < n := by have h2 := m.2; omega
    rw [List.get_eq_getElem, ← List.getD_eq_getElem _ 0 m.2]
    exact linspace_getD a b n m.1 hm
  rw [List.Sorted, List.pairwise_iff_get]
  intro i j hij
  rw [key i, key j]
  have hij' : i.1 < j.1 := hij
  by_cases hn : n ≤ 1
  · exfalso
    have hj : j.1 < n := by have h2 := j.2; omega
    omega
  · push_neg at hn
    have hpos : (0 : ℚ) < (n : ℚ) - 1 := by
      have h1 : (1 : ℚ) < (n : ℚ) := by exact_mod_cast hn
      linarith
    have hle : (i.1 : ℚ) ≤ (j.1 : ℚ) := by exact_mod_cast le_of_lt hij'
    have hba : (0 : ℚ) ≤ b - a := by linarith
    have hmul : (b - a) * i.1 ≤ (b - a) * j.1 :=
      mul_le_mul_of_nonneg_left hle hba
    have hdiv : (b - a) * i.1 / ((n : ℚ) - 1) ≤ (b - a) * j.1 / ((n : ℚ) - 1) := by
      gcongr
    linarith

theorem linspace_const (a : ℚ) (n : ℕ) : ∀ y ∈ linspace a a n, y = a := by
  intro y hy
  unfold linspace at hy
  by_cases h : n = 1
  · subst h; simpa using hy
  · rw [if_neg h] at hy
    rcases List.mem_map.1 hy with ⟨i, -, rfl⟩
    simp

/-! ### Claim theorems -/

/-- Claim C2 (code-bug exhibit).  Flood mode on `net3` (three pores, one
throat joining pores 0 and 2 with entry pressure 1) at applied pressure 10:
the open-throat endpoint set is exactly `{0, 2}` and pore 1 touches no open
throat, yet `_do_one_inner_iteration` returns `[0, 2, 0]`, marking only the
isolated pore 1 as invaded (its cluster label 2 collides with the pore
number 2 that survives the nonzero filter) and leaving the two endpoints
unmarked.  This contradicts the claim that a pore is invaded-this-step iff
it is an endpoint of a throat whose entry pressure is below the applied
pressure. -/
theorem C2_flood_mode_divergence :
    (doOneInnerIteration cfgOP net3 10).2 = [0, 2, 0] ∧
      openEdges net3 10 = [(0, 2)] ∧
      (∀ e ∈ openEdges net3 10, e.1 ≠ 1 ∧ e.2 ≠ 1) := by
  decide

/-- Claim C4: the per-step commit sets the record to the applied pressure
exactly for pores that are invaded-this-step while still at the uninvaded
`0` sentinel, and a record entry holding a non-sentinel value is never
changed by any later step of the sweep. -/
theorem C4_record_write_once (cfg : AlgCfg) (net : Network) :
    (∀ (inv_val : ℚ) (q : ℕ), q < (recListOf net).length →
        recOf (stepNet cfg net inv_val) q =
          if recOf net q = 0 ∧ 0 < (doOneInnerIteration cfg net inv_val).2.getD q 0
          then inv_val else recOf net q) ∧
      ∀ (pts1 pts2 : List ℚ) (q : ℕ) (v : ℚ), v ≠ 0 →
        recOf (sweepFrom cfg net pts1) q = v →
        recOf (sweepFrom cfg net (pts1 ++ pts2)) q = v := by
  constructor
  · intro v q hq
    show (recListOf (stepNet cfg net v)).getD q 0 = _
    rw [stepNet_recList, commit_getD]
    have hc : (q < (recListOf net).length ∧ (recListOf net).getD q 0 = 0 ∧
        0 < (doOneInnerIteration cfg net v).2.getD q 0) ↔
        (recOf net q = 0 ∧ 0 < (doOneInnerIteration cfg net v).2.getD q 0) := by
      constructor
      · rintro ⟨-, h2, h3⟩; exact ⟨h2, h3⟩
      · rintro ⟨h2, h3⟩; exact ⟨hq, h2, h3⟩
    rw [if_congr hc rfl rfl]
    rfl
  · intro pts1 pts2 q v hv h
    show recOf (List.foldl (stepNet cfg) net (pts1 ++ pts2)) q = v
    rw [List.foldl_append]
    exact sweep_preserve cfg pts2 _ q v hv h

/-- Witness for C4: on `netB` with both pores as sources, the record entry
committed at pressure 5 survives the later step at pressure 7. -/
theorem C4_record_write_once_witness :
    recOf (sweepFrom cfgW netB ([5] ++ [7])) 0 = 5 :=
  (C4_record_write_once cfgW netB).2 [5] [7] 0 5 (by norm_num) (by decide)

/-- Claim C10: the uninvaded sentinel is the number `0`, so the write-once
guarantee only holds when the scheduled pressures are nonzero.  Part one:
if every scheduled pressure is nonzero and pore `q` is committed at the step
with pressure `p` (invaded-this-step while at the sentinel), the final
record keeps the value `p`.  Part two: at pressure `0` the same commit
leaves the record indistinguishable from uninvaded — on `netB` with source
pore 0 and schedule `[0, 5]`, pore 0 is invaded-this-step at pressure 0 and
its record stays `0`, but the later step overwrites it with `5`. -/
theorem C10_zero_sentinel_overwrite :
    (∀ (cfg : AlgCfg) (net : Network) (pts1 : List ℚ) (p : ℚ) (pts2 : List ℚ)
        (q : ℕ),
        (∀ r ∈ pts1 ++ p :: pts2, r ≠ 0) →
        q < (recListOf (sweepFrom cfg net pts1)).length →
        recOf (sweepFrom cfg net pts1) q = 0 →
        0 < (doOneInnerIteration cfg (sweepFrom cfg net pts1) p).2.getD q 0 →
        recOf (sweepFrom cfg net (pts1 ++ p :: pts2)) q = p) ∧
      (recOf (sweepFrom cfg10 netB [0]) 0 = 0 ∧
        0 < (doOneInnerIteration cfg10 netB 0).2.getD 0 0 ∧
        recOf (sweepFrom cfg10 netB [0, 5]) 0 = 5) := by
  constructor
  · intro cfg net pts1 p pts2 q hall hq h0 hmark
    have hp : p ≠ 0 := hall p (by simp)
    have hstep : recOf (stepNet cfg (sweepFrom cfg net pts1) p) q = p := by
      show (recListOf (stepNet cfg (sweepFrom cfg net pts1) p)).getD q 0 = p
      rw [stepNet_recList, commit_getD, if_pos ⟨hq, h0, hmark⟩]
    have hsplit : pts1 ++ p :: pts2 = (pts1 ++ [p]) ++ pts2 := by simp
    rw [hsplit]
    show recOf (List.foldl (stepNet cfg) net ((pts1 ++ [p]) ++ pts2)) q = p
    rw [List.foldl_append, List.foldl_append]
    exact sweep_preserve cfg pts2 _ q p hp hstep
  · exact ⟨by decide, by decide, by decide⟩

/-- Witness for C10 part one at concrete inputs: on `netB` with source
pore 0 and the nonzero schedule `[5]`, the commit at pressure 5 is final. -/
theorem C10_zero_sentinel_overwrite_witness :
    recOf (sweepFrom cfg10 netB ([] ++ 5 :: [])) 0 = 5 :=
  C10_zero_sentinel_overwrite.1 cfg10 netB [] 5 [] 0 (by decide) (by decide)
    (by decide) (by decide)

/-- Claim C9 (amended).  The algorithm never modifies the intrinsic input
data of the network (pore and throat counts, connections, entry pressures,
volumes, types, numbering) — neither `_setup` nor any sweep step — but it
does write its own bookkeeping arrays into the network's property maps
(see the counterexample). -/
theorem C9_intrinsic_readonly (net : Network) (npts : ℤ) (faces : List ℤ)
    (sites : List ℕ) (cfg : AlgCfg) (inv_val : ℚ) :
    (∀ net' cfg', setup net npts faces sites = Except.ok (net', cfg') →
        sameIntrinsic net net') ∧
      sameIntrinsic net (doOneInnerIteration cfg net inv_val).1 ∧
      sameIntrinsic net (stepNet cfg net inv_val) ∧
      sameIntrinsic net (doOuterIterationStage cfg net) := by
  refine ⟨?_, ⟨rfl, rfl, rfl, rfl, rfl, rfl⟩, stepNet_intrinsic cfg net inv_val, ?_⟩
  · intro net' cfg' h
    unfold setup at h
    by_cases h1 : net.Pc_entry.length = 0
    · rw [if_pos h1] at h
      exact absurd h (by simp)
    · rw [if_neg h1] at h
      by_cases h2 : npts < 0
      · rw [if_pos h2] at h
        exact absurd h (by simp)
      · rw [if_neg h2] at h
        simp only [Except.ok.injEq, Prod.mk.injEq] at h
        obtain ⟨hnet, -⟩ := h
        subst hnet
        exact ⟨rfl, rfl, rfl, rfl, rfl, rfl⟩
  · refine sameIntrinsic_trans (sweep_intrinsic cfg cfg.inv_points net) ?_
    exact ⟨rfl, rfl, rfl, rfl, rfl, rfl⟩

/-- Claim C9 counterexample: `_setup` does write pore and throat properties
of the network — it stores the `Pc_invaded` record into
`pore_properties`, which was absent before the call. -/
theorem C9_network_write_counterexample :
    netA.pore_Pc_invaded = none ∧
      (setupResultNet netA 25 [] []).map (fun n => n.pore_Pc_invaded) =
        some (some [0, 0]) := by
  exact ⟨rfl, by decide⟩

/-- Witness for C9 on concrete inputs: the network `_setup` returns on
`netA` agrees with `netA` on all intrinsic fields. -/
theorem C9_intrinsic_readonly_witness : sameIntrinsic netA netAok :=
  (C9_intrinsic_readonly netA 25 [] [] cfgOP 5).1 netAok cfgAok (by rfl)

/-- Claim C6 (amended).  `_setup` fails eagerly (with the underlying
library's error, there is no dedicated ConfigurationError in the source)
when the network has zero throats, and when `num_pressure_points` is
negative; but `num_pressure_points = 0` does NOT fail — it yields an empty
pressure schedule, so the sweep performs no steps (see the
counterexample). -/
theorem C6_setup_failure_modes (net : Network) (npts : ℤ) (faces : List ℤ)
    (sites : List ℕ) :
    (net.Pc_entry = [] → exceptIsOk (setup net npts faces sites) = false) ∧
      (npts < 0 → exceptIsOk (setup net npts faces sites) = false) ∧
      (npts = 0 → net.Pc_entry ≠ [] →
        ∃ net' cfg, setup net npts faces sites = .ok (net', cfg) ∧
          cfg.inv_points = []) := by
  refine ⟨?_, ?_, ?_⟩
  · intro h
    unfold setup
    rw [if_pos (by simp [h])]
    rfl
  · intro h
    unfold setup
    by_cases h1 : net.Pc_entry.length = 0
    · rw [if_pos h1]
      rfl
    · rw [if_neg h1, if_pos h]
      rfl
  · intro h0 hT
    subst h0
    exact ⟨_, _, setup_ok hT le_rfl, rfl⟩

/-- Claim C6 counterexample: setup with zero pressure points succeeds
instead of failing. -/
theorem C6_zero_npts_counterexample :
    exceptIsOk (setup netB 0 [] [0]) = true := by decide

/-- Witness for C6 on a concrete zero-throat network. -/
theorem C6_setup_failure_modes_witness :
    exceptIsOk (setup netE 25 [] []) = false :=
  (C6_setup_failure_modes netE 25 [] []).1 rfl

/-- Claim C1 (amended).  Supplying both face-sources and site-sources does
NOT raise any error: `_setup` silently prefers `inv_faces` (face mode, with
`_ALOP = 1` and `_inv_src` built from the face tags).  Supplying neither
activates flood mode (`_OP = 1`) without error, as the claim states. -/
theorem C1_source_mode_selection (net : Network) (npts : ℤ) (faces : List ℤ)
    (sites : List ℕ) (p : ℚ) (ps : List ℚ) (hT : net.Pc_entry = p :: ps)
    (hn : 0 ≤ npts) :
    (faces ≠ [] → sites ≠ [] →
      ∃ net' cfg, setup net npts faces sites = .ok (net', cfg) ∧
        cfg.ALOP = 1 ∧ cfg.OP = 0 ∧ cfg.inv_src = np_in1d_int net.ptype faces) ∧
      (faces = [] → sites = [] →
        ∃ net' cfg, setup net npts faces sites = .ok (net', cfg) ∧
          cfg.OP = 1 ∧ cfg.ALOP = 0) := by
  have hTne : net.Pc_entry ≠ [] := by rw [hT]; simp
  constructor
  · intro hf _
    refine ⟨_, _, setup_ok hTne hn, ?_, ?_, ?_⟩
    · show (interpretSource net faces sites).2.1 = 1
      rw [interpretSource_faces hf]
    · show (interpretSource net faces sites).1 = 0
      rw [interpretSource_faces hf]
    · show (interpretSource net faces sites).2.2 = _
      rw [interpretSource_faces hf]
  · intro hf hs
    subst hf
    subst hs
    refine ⟨_, _, setup_ok hTne hn, ?_, ?_⟩
    · show (interpretSource net [] []).1 = 1
      rw [interpretSource_none]
    · show (interpretSource net [] []).2.1 = 0
      rw [interpretSource_none]

/-- Claim C1 counterexample: both source kinds supplied, yet `_setup`
succeeds (no ConfigurationError is raised anywhere in the source). -/
theorem C1_both_sources_counterexample :
    exceptIsOk (setup netB 25 [1] [0]) = true := by decide

/-- Witness for C1 on concrete inputs. -/
theorem C1_source_mode_selection_witness :
    ∃ net' cfg, setup netB 25 [1] [2] = .ok (net', cfg) ∧
      cfg.ALOP = 1 ∧ cfg.OP = 0 ∧ cfg.inv_src = np_in1d_int netB.ptype [1] :=
  (C1_source_mode_selection netB 25 [1] [2] 3 [] rfl (by norm_num)).1
    (by simp) (by simp)

/-- Claim C5: for a network with at least one throat and `npts >= 1`,
`_setup` succeeds and the pressure schedule is exactly `npts` evenly spaced
points from the minimum to the maximum throat entry pressure (hence
non-decreasing); when all entry pressures coincide the schedule is the
degenerate constant schedule and the run does not fail. -/
theorem C5_pressure_schedule (net : Network) (npts : ℤ) (p : ℚ) (ps : List ℚ)
    (hT : net.Pc_entry = p :: ps) (h1 : 1 ≤ npts) :
    ∃ net' cfg, setup net npts [] [] = .ok (net', cfg) ∧
      cfg.inv_points.length = npts.toNat ∧
      (∀ x ∈ net.Pc_entry,
        net.Pc_entry.foldl min (net.Pc_entry.headD 0) ≤ x ∧
          x ≤ net.Pc_entry.foldl max (net.Pc_entry.headD 0)) ∧
      net.Pc_entry.foldl min (net.Pc_entry.headD 0) ∈ net.Pc_entry ∧
      net.Pc_entry.foldl max (net.Pc_entry.headD 0) ∈ net.Pc_entry ∧
      (∀ i, i < npts.toNat → cfg.inv_points.getD i 0 =
        net.Pc_entry.foldl min (net.Pc_entry.headD 0) +
          (net.Pc_entry.foldl max (net.Pc_entry.headD 0) -
            net.Pc_entry.foldl min (net.Pc_entry.headD 0)) * (i : ℚ) /
            ((npts.toNat : ℚ) - 1)) ∧
      List.Sorted (· ≤ ·) cfg.inv_points ∧
      ((∀ x ∈ net.Pc_entry, x = p) → ∀ y ∈ cfg.inv_points, y = p) := by
  have hTne : net.Pc_entry ≠ [] := by rw [hT]; simp
  have hmin_mem : net.Pc_entry.foldl min (net.Pc_entry.headD 0) ∈ net.Pc_entry := by
    rcases foldl_min_mem net.Pc_entry (net.Pc_entry.headD 0) with h | h
    · rw [h, hT]
      simp
    · exact h
  have hmax_mem : net.Pc_entry.foldl max (net.Pc_entry.headD 0) ∈ net.Pc_entry := by
    rcases foldl_max_mem net.Pc_entry (net.Pc_entry.headD 0) with h | h
    · rw [h, hT]
      simp
    · exact h
  have hminmax : net.Pc_entry.foldl min (net.Pc_entry.headD 0) ≤
      net.Pc_entry.foldl max (net.Pc_entry.headD 0) :=
    foldl_min_le_mem _ _ _ hmax_mem
  refine ⟨_, _, setup_ok hTne (by omega), ?_, ?_, hmin_mem, hmax_mem, ?_, ?_, ?_⟩
  · exact linspace_length _ _ _
  · intro x hx
    exact ⟨foldl_min_le_mem _ _ x hx, foldl_max_ge_mem _ _ x hx⟩
  · intro i hi
    exact linspace_getD _ _ _ i hi
  · exact linspace_sorted _ _ _ hminmax
  · intro hall y hy
    have hmn : net.Pc_entry.foldl min (net.Pc_entry.headD 0) = p := hall _ hmin_mem
    have hmx : net.Pc_entry.foldl max (net.Pc_entry.headD 0) = p := hall _ hmax_mem
    rw [hmn, hmx] at hy
    exact linspace_const p _ y hy

/-- Witness for C5 on `netB` (one throat with entry pressure 3, the
degenerate schedule) with the default 25 points. -/
theorem C5_pressure_schedule_witness :
    ∃ net' cfg, setup netB 25 [] [] = .ok (net', cfg) ∧
      cfg.inv_points.length = (25 : ℤ).toNat ∧
      (∀ x ∈ netB.Pc_entry,
        netB.Pc_entry.foldl min (netB.Pc_entry.headD 0) ≤ x ∧
          x ≤ netB.Pc_entry.foldl max (netB.Pc_entry.headD 0)) ∧
      netB.Pc_entry.foldl min (netB.Pc_entry.headD 0) ∈ netB.Pc_entry ∧
      netB.Pc_entry.foldl max (netB.Pc_entry.headD 0) ∈ netB.Pc_entry ∧
      (∀ i, i < (25 : ℤ).toNat → cfg.inv_points.getD i 0 =
        netB.Pc_entry.foldl min (netB.Pc_entry.headD 0) +
          (netB.Pc_entry.foldl max (netB.Pc_entry.headD 0) -
            netB.Pc_entry.foldl min (netB.Pc_entry.headD 0)) * (i : ℚ) /
            (((25 : ℤ).toNat : ℚ) - 1)) ∧
      List.Sorted (· ≤ ·) cfg.inv_points ∧
      ((∀ x ∈ netB.Pc_entry, x = 3) → ∀ y ∈ cfg.inv_points, y = 3) :=
  C5_pressure_schedule netB 25 3 [] rfl (by norm_num)

/-- Claim C3: in source-face or source-site mode (`_ALOP = 1` with source
mask `inv_src`), a pore `q` is marked invaded-this-step at applied pressure
`inv_val` iff the connected component of `q` in the graph whose edges are
exactly the throats with entry pressure strictly below `inv_val` contains a
pore matching the source mask (a source pore that is an isolated singleton
is trivially connected to itself and is marked). -/
theorem C3_source_mode_cluster_reachability (net : Network)
    (inv_src : List Bool) (pts : List ℚ) (inv_val : ℚ) (q : ℕ)
    (hsrc : inv_src.length = net.numPores) (hq : q < net.numPores) :
    (0 < (doOneInnerIteration ⟨0, 1, inv_src, pts⟩ net inv_val).2.getD q 0) ↔
      ∃ s, s < net.numPores ∧ inv_src.getD s false = true ∧
        Conn net.numPores (openEdges net inv_val) q s := by
  have hred : (doOneInnerIteration ⟨0, 1, inv_src, pts⟩ net inv_val).2 =
      trimClusters (clustersOf net inv_val)
        (alopInj inv_src (clustersOf net inv_val)) := rfl
  rw [hred]
  have hlcl : (clustersOf net inv_val).length = net.numPores :=
    clustersOf_length net inv_val
  have hqlen : q < (clustersOf net inv_val).length := by omega
  have hres : (trimClusters (clustersOf net inv_val)
      (alopInj inv_src (clustersOf net inv_val))).getD q 0 =
      (if (clustersOf net inv_val).getD q 0 ∈
          npUnique ((alopInj inv_src (clustersOf net inv_val)).filter
            (fun x => decide (x ≠ 0)))
        then (clustersOf net inv_val).getD q 0 else 0) := by
    unfold trimClusters
    exact getD_map_lt hqlen 0 0
  rw [hres, clustersOf_getD hq]
  set L := rawLabel net.numPores (openEdges net inv_val) q + 1 with hL
  have hinjlen : (alopInj inv_src (clustersOf net inv_val)).length =
      net.numPores := by
    rw [alopInj_length, hsrc, hlcl, min_self]
  constructor
  · intro hpos
    by_cases hmem : L ∈ npUnique ((alopInj inv_src (clustersOf net inv_val)).filter
        (fun x => decide (x ≠ 0)))
    · have h1 : L ∈ (alopInj inv_src (clustersOf net inv_val)).filter
          (fun x => decide (x ≠ 0)) := mem_npUnique.1 hmem
      have h2 : L ∈ alopInj inv_src (clustersOf net inv_val) :=
        (List.mem_filter.1 h1).1
      rcases List.mem_iff_get.1 h2 with ⟨n, hn⟩
      have hsP : n.1 < net.numPores := by have := n.2; omega
      have hgetD : (alopInj inv_src (clustersOf net inv_val)).getD n.1 0 = L := by
        rw [List.getD_eq_getElem _ _ n.2, ← List.get_eq_getElem]
        exact hn
      rw [alopInj_getD inv_src (clustersOf net inv_val) n.1 (by omega) (by omega)]
        at hgetD
      by_cases hs : inv_src.getD n.1 false
      · rw [if_pos hs, clustersOf_getD hsP] at hgetD
        have hrl : rawLabel net.numPores (openEdges net inv_val) n.1 =
            rawLabel net.numPores (openEdges net inv_val) q := by omega
        have hrep := (rawLabel_eq_iff hsP hq).1 hrl
        have hconn := (repOf_eq_iff hsP hq).1 hrep
        exact ⟨n.1, hsP, hs, conn_symm hconn⟩
      · rw [if_neg hs] at hgetD
        omega
    · rw [if_neg hmem] at hpos
      exact absurd hpos (lt_irrefl 0)
  · rintro ⟨s, hsP, hs, hconn⟩
    have hrep := (repOf_eq_iff hsP hq).2 (conn_symm hconn)
    have hrl := (rawLabel_eq_iff hsP hq).2 hrep
    have hslen : s < (alopInj inv_src (clustersOf net inv_val)).length := by omega
    have hgetD : (alopInj inv_src (clustersOf net inv_val)).getD s 0 = L := by
      rw [alopInj_getD inv_src (clustersOf net inv_val) s (by omega) (by omega),
        if_pos hs, clustersOf_getD hsP, hrl]
    have hmemInj : L ∈ alopInj inv_src (clustersOf net inv_val) := by
      rw [← hgetD, List.getD_eq_getElem _ _ hslen]
      exact List.getElem_mem hslen
    have hmem : L ∈ npUnique ((alopInj inv_src (clustersOf net inv_val)).filter
        (fun x => decide (x ≠ 0))) := by
      rw [mem_npUnique, List.mem_filter]
      exact ⟨hmemInj, by simp [hL]⟩
    rw [if_pos hmem]
    omega

/-- Witness for C3: on `net3` at pressure 10 with source pore 0, pore 2 is
marked invaded because the open throat connects it to the source. -/
theorem C3_source_mode_cluster_reachability_witness :
    0 < (doOneInnerIteration ⟨0, 1, [true, false, false], []⟩ net3 10).2.getD 2 0 :=
  (C3_source_mode_cluster_reachability net3 [true, false, false] [] 10 2
    (by decide) (by decide)).mpr
    ⟨0, by decide, by decide, Relation.ReflTransGen.single (by decide)⟩

/-- Claim C7: the extracted curve's pressures are the distinct values of the
finalized record sorted ascending, and the saturation at every point of the
curve equals the volume of internal pores with record strictly below that
pressure over the total internal volume. -/
theorem C7_saturation_curve (net : Network) (pci : List ℚ)
    (hrec : net.pore_Pc_invaded = some pci)
    (hlen : pci.length = net.numPores)
    (hvol : 0 < volOf net (poresInternal net)) :
    List.Sorted (· ≤ ·) ((plotResults net).map Prod.fst) ∧
      ((plotResults net).map Prod.fst).Nodup ∧
      (∀ x : ℚ, x ∈ (plotResults net).map Prod.fst ↔ x ∈ pci) ∧
      ∀ pr ∈ plotResults net, pr.2 = satAt net pci pr.1 := by
  have hrl : recListOf net = pci := by
    show net.pore_Pc_invaded.getD [] = pci
    rw [hrec]
    rfl
  cases hU : npUnique pci with
  | nil =>
      have hplot : plotResults net = [] := by
        unfold plotResults
        rw [hrl, hU]
      rw [hplot]
      refine ⟨by simp, by simp, ?_, by simp⟩
      intro x
      constructor
      · intro hx
        simp at hx
      · intro hx
        have hx2 : x ∈ npUnique pci := mem_npUnique.2 hx
        rw [hU] at hx2
        exact absurd hx2 (List.not_mem_nil x)
  | cons p0 rest =>
      have hplot : plotResults net =
          (p0, 0) :: rest.map (fun Pc => (Pc, satAt net pci Pc)) := by
        unfold plotResults
        rw [hrl, hU]
      have hfst : (plotResults net).map Prod.fst = p0 :: rest := by
        rw [hplot, List.map_cons, map_fst_pair]
      have hsorted := sorted_npUnique pci
      rw [hU] at hsorted
      refine ⟨?_, ?_, ?_, ?_⟩
      · rw [hfst]
        exact hsorted
      · rw [hfst]
        have hnd := nodup_npUnique pci
        rw [hU] at hnd
        exact hnd
      · intro x
        rw [hfst, ← hU]
        exact mem_npUnique
      · intro pr hpr
        rw [hplot] at hpr
        rcases List.mem_cons.1 hpr with h | h
        · subst h
          show (0 : ℚ) = satAt net pci p0
          refine (satAt_bot ?_).symm
          intro r hr
          have hrP : r < net.numPores := (mem_poresInternal.1 hr).1
          have hrlen : r < pci.length := by omega
          have hval : pci.getD r 0 ∈ pci := by
            rw [List.getD_eq_getElem _ _ hrlen]
            exact List.getElem_mem hrlen
          have hmem2 : pci.getD r 0 ∈ p0 :: rest := by
            rw [← hU]
            exact mem_npUnique.2 hval
          have hle : p0 ≤ pci.getD r 0 := by
            rcases List.mem_cons.1 hmem2 with h2 | h2
            · exact le_of_eq h2.symm
            · exact (List.sorted_cons.1 hsorted).1 _ h2
          exact not_lt.2 hle
        · rcases List.mem_map.1 h with ⟨Pc, -, rfl⟩
          rfl

/-- Witness for C7 on `netF` (record `[2, 7]`). -/
theorem C7_saturation_curve_witness :
    (0 : ℚ) ∈ (plotResults netF).map Prod.fst ↔ (0 : ℚ) ∈ ([2, 7] : List ℚ) :=
  (C7_saturation_curve netF [2, 7] rfl (by decide) (by
    have h1 : poresInternal netF = [0, 1] := by decide
    unfold volOf
    rw [h1]
    norm_num [netF, netB, List.getD_cons_zero, List.getD_cons_succ])).2.2.1 0

/-- Claim C8: the extracted curve starts at saturation 0, every saturation
lies in `[0, 1]`, and saturation is non-decreasing along the curve
(volumes are non-negative, as the data model requires, and the total
reporting volume is positive — with a zero total the source's float
division would produce nan at every non-first point). -/
theorem C8_saturation_monotone (net : Network)
    (hv : ∀ v ∈ net.volume, 0 ≤ v)
    (hvol : 0 < volOf net (poresInternal net)) :
    (∀ p0 s0 rest, plotResults net = (p0, s0) :: rest → s0 = 0) ∧
      (∀ pr ∈ plotResults net, 0 ≤ pr.2 ∧ pr.2 ≤ 1) ∧
      List.Sorted (· ≤ ·) ((plotResults net).map Prod.snd) := by
  cases hU : npUnique (recListOf net) with
  | nil =>
      have hplot : plotResults net = [] := by
        unfold plotResults
        rw [hU]
      refine ⟨?_, ?_, ?_⟩
      · intro a b c h
        rw [hplot] at h
        exact absurd h (by simp)
      · intro pr hpr
        rw [hplot] at hpr
        simp at hpr
      · rw [hplot]
        simp
  | cons p0 rest =>
      have hplot : plotResults net = (p0, 0) :: rest.map
          (fun Pc => (Pc, satAt net (recListOf net) Pc)) := by
        unfold plotResults
        rw [hU]
      have hsorted := sorted_npUnique (recListOf net)
      rw [hU] at hsorted
      refine ⟨?_, ?_, ?_⟩
      · intro a b c h
        rw [hplot] at h
        simp only [List.cons.injEq, Prod.mk.injEq] at h
        exact h.1.2.symm
      · intro pr hpr
        rw [hplot] at hpr
        rcases List.mem_cons.1 hpr with h | h
        · subst h
          exact ⟨le_refl 0, by norm_num⟩
        · rcases List.mem_map.1 h with ⟨Pc, -, rfl⟩
          exact ⟨satAt_nonneg net _ Pc hv, satAt_le_one net _ Pc hv⟩
      · rw [hplot]
        have hmap : (((p0, (0 : ℚ)) :: rest.map
            (fun Pc => (Pc, satAt net (recListOf net) Pc))).map Prod.snd) =
            0 :: rest.map (fun Pc => satAt net (recListOf net) Pc) := by
          rw [List.map_cons, map_snd_pair]
        rw [hmap, List.sorted_cons]
        constructor
        · intro b hb
          rcases List.mem_map.1 hb with ⟨Pc, -, rfl⟩
          exact satAt_nonneg net _ Pc hv
        · have hrest : List.Pairwise (· ≤ ·) rest :=
            (List.sorted_cons.1 hsorted).2
          exact List.Pairwise.map _
            (fun a b hab => satAt_mono net _ hv hab) hrest

/-- Witness for C8 on `netF`: the first curve point has saturation 0,
within bounds. -/
theorem C8_saturation_monotone_witness :
    0 ≤ ((2 : ℚ), (0 : ℚ)).2 ∧ ((2 : ℚ), (0 : ℚ)).2 ≤ 1 :=
  (C8_saturation_monotone netF (by decide) (by
    have h1 : poresInternal netF = [0, 1] := by decide
    unfold volOf
    rw [h1]
    norm_num [netF, netB, List.getD_cons_zero, List.getD_cons_succ])).2.1
    (2, 0) (by decide)

end OPAlg
